import Mathlib

/-!
Shallow embedding of the recovery pipeline of the cipher-project repository
(src/crack/crack_known_keylength.rs, src/crack/keylength.rs,
src/crack/spellcheck.rs, src/dict.rs, src/utils.rs) and proofs about it.

Conventions of the embedding:
* Rust `u8` symbols are `ℕ` with explicit `% 27` / range hypotheses where the
  source relies on them; `i8` shift amounts are `ℤ` restricted to `[-128, 128)`.
* `f32`/`f64` values are modelled exactly by `Option ℚ`: `some q` is the real
  value `q`, `none` is the IEEE NaN produced by the only reachable non-finite
  operation in these code paths, the division `0.0 / 0.0` (an empty histogram
  or an empty chunk list divided by its length).  NaN propagates through
  arithmetic; ordered comparisons involving NaN are `false`, and the places
  where the Rust source calls `partial_cmp(..).unwrap()` (which panics on NaN)
  are modelled by an `Option` result of the enclosing function, `none` = panic.
* Rational arithmetic is spelled with the kernel-computable `mkRat`-based
  helpers `qadd`, `qsub`, `qmul`, `qdiv`, `qabs`, `qblt`, `qble` below (the
  standard `Rat` operations are `@[irreducible]` and cannot be evaluated by
  `decide`); the bridge lemmas identify them with the field operations of `ℚ`.
* Rust iterator `min_by` keeps the first minimum (ties keep the accumulator),
  `max_by_key` keeps the last maximum (ties replace the accumulator); the
  folds below implement exactly that.
-/

namespace Cipher

/-- Kernel-computable addition on `ℚ`. -/
def qadd (a b : ℚ) : ℚ := mkRat (a.num * b.den + b.num * a.den) (a.den * b.den)

/-- Kernel-computable subtraction on `ℚ`. -/
def qsub (a b : ℚ) : ℚ := mkRat (a.num * b.den - b.num * a.den) (a.den * b.den)

/-- Kernel-computable multiplication on `ℚ`. -/
def qmul (a b : ℚ) : ℚ := mkRat (a.num * b.num) (a.den * b.den)

/-- Kernel-computable division on `ℚ` (0 when the divisor is 0, like `ℚ`). -/
def qdiv (a b : ℚ) : ℚ := Rat.divInt (a.num * b.den) (a.den * b.num)

/-- Kernel-computable absolute value on `ℚ`. -/
def qabs (a : ℚ) : ℚ := mkRat a.num.natAbs a.den

/-- Kernel-computable strict comparison on `ℚ`. -/
def qblt (a b : ℚ) : Bool := a.num * b.den < b.num * a.den

/-- Kernel-computable non-strict comparison on `ℚ`. -/
def qble (a b : ℚ) : Bool := decide (a.num * b.den ≤ b.num * a.den)

/-- Model of an `f32`/`f64` value: `some q` is a finite value, `none` is NaN. -/
abbrev F : Type := Option ℚ

/-- Addition of float values; NaN propagates. -/
def fadd : F → F → F
  | some a, some b => some (qadd a b)
  | _, _ => none

/-- Subtraction of float values; NaN propagates. -/
def fsub : F → F → F
  | some a, some b => some (qsub a b)
  | _, _ => none

/-- Multiplication of float values; NaN propagates. -/
def fmul : F → F → F
  | some a, some b => some (qmul a b)
  | _, _ => none

/-- Absolute value of a float value; NaN propagates. -/
def fabs : F → F
  | some a => some (qabs a)
  | none => none

/-- Division of float values.  Division by zero yields `none`: the only
division-by-zero the modelled code can reach is `0.0 / 0.0`, which is NaN. -/
def fdiv : F → F → F
  | some a, some b => if b = 0 then none else some (qdiv a b)
  | _, _ => none

/-- Strict `<` on float values; any comparison against NaN is `false`. -/
def flt : F → F → Bool
  | some a, some b => qblt a b
  | _, _ => false

/-- Non-strict `≤` on float values; any comparison against NaN is `false`. -/
def fle : F → F → Bool
  | some a, some b => qble a b
  | _, _ => false

/-- Sum of a list of float values, starting from `0.0` as Rust's
`Iterator::sum` does; NaN propagates. -/
def fsum (l : List F) : F := l.foldl fadd (some 0)

/-- The alphabet `a..z` plus space has 27 symbols (`utils::ALPHABET`). -/
def alphabetLen : ℕ := 27

/-- Embedding of `impl Shift for u8` (src/utils.rs): the shift amount (an
`i8`) is reduced with `rem_euclid(27)` into `[0,27)`, added to the symbol and
reduced `% 27`.  Rust's `+` on `u8` panics on overflow in debug builds; the
addition is modelled on `ℕ` and the absence of overflow is proved separately
(C9). -/
def u8.shift (s : ℕ) (amount : ℤ) : ℕ :=
  (s + (amount % (alphabetLen : ℤ)).toNat) % alphabetLen

/-- Embedding of `Frequencies` (src/crack/crack_known_keylength.rs): one bin
per alphabet symbol. -/
structure Frequencies where
  values : Fin 27 → F

/-- Embedding of `Frequencies::from_bytes`: histogram of the 27 symbols,
each bin divided by the byte count.  On the empty input this divides
`0.0 / 0.0`, i.e. every bin is NaN.  (Rust would panic on a byte `≥ 27` when
indexing the histogram; every use site guarantees the range.) -/
def Frequencies.from_bytes (bytes : List ℕ) : Frequencies :=
  ⟨fun i => fdiv (some (bytes.count (i : ℕ))) (some bytes.length)⟩

/-- Embedding of `Frequencies::compare`: the sum over the 27 bins of the
absolute difference (L1 distance); NaN in any bin makes the result NaN. -/
def Frequencies.compare (a b : Frequencies) : F :=
  fsum ((List.finRange 27).map (fun i => fabs (fsub (b.values i) (a.values i))))

/-- Embedding of `CrackResult` (src/crack/mod.rs): guessed plaintext plus a
confidence (lower = more confident). -/
structure CrackResult where
  plaintext : List ℕ
  confidence : F
deriving DecidableEq

/-- Embedding of `best_crack` (src/crack/crack_known_keylength.rs): Rust's
`min_by` with `partial_cmp(..).unwrap()`.  `none` models the two panics: the
`assert!` on an empty list, and `unwrap` of `partial_cmp` on a NaN confidence
(reached as soon as the list has at least two entries and any confidence is
NaN, because every element takes part in some comparison).  Ties keep the
first minimum, as `min_by` does. -/
def best_crack : List CrackResult → Option CrackResult
  | [] => none
  | [x] => some x
  | x :: y :: xs =>
    if (x :: y :: xs).all (fun c => c.confidence.isSome) then
      some ((y :: xs).foldl (fun acc z => if flt z.confidence acc.confidence then z else acc) x)
    else none

/-- Embedding of `crack_block` (src/crack/crack_known_keylength.rs): for each
shift `s` in `0..27` (applied with `+s` through `u8::shift`), build the
shifted block, score it by L1 distance of its frequencies to the baseline,
and return the best (first-minimum) result. -/
def crack_block (cipherblock : List ℕ) (baseline : Frequencies) : Option CrackResult :=
  best_crack ((List.range alphabetLen).map (fun s =>
    let plaintext := cipherblock.map (fun n => u8.shift n (s : ℤ))
    { plaintext := plaintext
      confidence := Frequencies.compare baseline (Frequencies.from_bytes plaintext) }))

/-- ASCII whitespace, as recognised by Rust's `split_ascii_whitespace`. -/
def isAsciiWhitespace (c : Char) : Bool :=
  c = ' ' || c = '\t' || c = '\n' || c = '\x0d' || c = '\x0c'

/-- ASCII alphabetic test.  Rust's `char::is_alphabetic` also accepts
non-ASCII letters; after `to_ascii_lowercase` the inputs of interest here are
ASCII, and no claim depends on the non-ASCII extension. -/
def isAsciiAlpha (c : Char) : Bool :=
  ('a' ≤ c && c ≤ 'z') || ('A' ≤ c && c ≤ 'Z')

/-- Embedding of `str::split_ascii_whitespace` (with the preceding `trim`):
split at ASCII whitespace and drop the empty pieces. -/
def splitWords (s : List Char) : List (List Char) :=
  (List.splitOnP isAsciiWhitespace s).filter (fun w => !w.isEmpty)

/-- Byte-wise lexicographic order on words, as Rust's `sort` on `&str`
compares them (codepoint order equals UTF-8 byte order). -/
def lexLe : List Char → List Char → Bool
  | [], _ => true
  | _ :: _, [] => false
  | x :: xs, y :: ys =>
    if x.toNat < y.toNat then true
    else if y.toNat < x.toNat then false
    else lexLe xs ys

/-- Insert into a sorted list, before the first element that is not strictly
smaller; together with `sortBy` this is a stable sort, the behaviour of
Rust's `sort`/`sort_by`. -/
def insertLe {α : Type} (le : α → α → Bool) (a : α) : List α → List α
  | [] => [a]
  | b :: bs => if le a b then a :: b :: bs else b :: insertLe le a bs

/-- Stable insertion sort; agrees with any stable sort of the same total
preorder, in particular Rust's `sort`/`sort_by`. -/
def sortBy {α : Type} (le : α → α → Bool) : List α → List α
  | [] => []
  | x :: xs => insertLe le x (sortBy le xs)

/-- Embedding of `Dictionary::from_string` (src/dict.rs): lowercase the
source, split on ASCII whitespace, keep only the alphabetic words, sort.
No deduplication happens anywhere. -/
def Dictionary.from_string (source : List Char) : List (List Char) :=
  sortBy lexLe
    ((splitWords (source.map Char.toLower)).filter (fun w => w.all isAsciiAlpha))

/-- Embedding of `CharToNum::to_num` (src/utils.rs). -/
def CharToNum.to_num (c : Char) : ℕ :=
  if c = ' ' then 26 else c.toNat - 'a'.toNat

/-- Embedding of `str_to_bytes` (src/utils.rs). -/
def str_to_bytes (s : List Char) : List ℕ := s.map CharToNum.to_num

/-- Embedding of `BytesDictionary::from_dict` (src/dict.rs): every word is
byte-encoded and a trailing space symbol 26 is appended. -/
def BytesDictionary.from_dict (words : List (List Char)) : List (List ℕ) :=
  words.map (fun w => str_to_bytes w ++ [26])

/-- Distance of the baseline to the frequency distribution of the column
shifted by `+s`, as `crack_block` computes it for each candidate shift. -/
def shiftDist (col : List ℕ) (B : Frequencies) (s : ℕ) : F :=
  Frequencies.compare B (Frequencies.from_bytes (col.map (fun n => u8.shift n (s : ℤ))))

/-- Claim C2 renders the spec's words: every shift `s` is applied as `-s` to
every symbol, the minimum-distance shift wins and ties go to the smallest
shift (first minimum in iteration order).  This definition follows those
words; it exists only to be compared against `crack_block`, which the source
defines with `+s`. -/
def crack_block_spec_neg (col : List ℕ) (B : Frequencies) : CrackResult :=
  let cands := (List.range alphabetLen).map (fun s =>
    let plaintext := col.map (fun n => u8.shift n (-(s : ℤ)))
    CrackResult.mk plaintext (Frequencies.compare B (Frequencies.from_bytes plaintext)))
  match cands with
  | [] => CrackResult.mk [] none
  | x :: xs => xs.foldl (fun acc y => if flt y.confidence acc.confidence then y else acc) x

/-- The concrete baseline used to separate `crack_block` from the spec's
`-s` description: half weight on symbol 1, half weight on symbol 26. -/
def counterBaseline : Frequencies :=
  ⟨fun i => if (i : ℕ) = 1 ∨ (i : ℕ) = 26 then some (mkRat 1 2) else some 0⟩

/-- Number of one bits of a byte, as `u8::count_ones` computes for the
8 bit positions. -/
def count_ones8 (n : ℕ) : ℕ :=
  ((List.range 8).map (fun i => n / 2 ^ i % 2)).sum

/-- Embedding of `hamming_distance` (src/crack/keylength.rs): bitwise
distance of two equal-length byte slices (the body zips, so the `assert_eq!`
on the lengths is the only divergence and is unreachable from
`chunks_exact`). -/
def hamming_distance (a b : List ℕ) : ℕ :=
  ((a.zip b).map (fun p => count_ones8 (Nat.xor p.1 p.2))).sum

/-- The chunk loop of Rust's `chunks_exact`: full chunks only, fuelled by the
input length so that it stays structurally recursive. -/
def chunksExactGo (k : ℕ) : ℕ → List ℕ → List (List ℕ)
  | 0, _ => []
  | fuel + 1, l => if k ≤ l.length then l.take k :: chunksExactGo k fuel (l.drop k) else []

/-- Embedding of `input.chunks_exact(chunksize)`: consecutive full chunks,
any short trailing chunk dropped.  (`chunksize = 0` panics in Rust; callers
use `3 ≤ chunksize`.) -/
def chunksExact (l : List ℕ) (k : ℕ) : List (List ℕ) :=
  chunksExactGo k l.length l

/-- The double loop of `hamming_distance_between_chunks`: for `ii` in
`0..n`, for `jj` in `ii..n`, add the Hamming distance of chunks `ii` and
`jj`. -/
def pairsDistance (chunks : List (List ℕ)) : ℕ :=
  ((List.range chunks.length).map (fun ii =>
    ((List.range' ii (chunks.length - ii)).map (fun jj =>
      hamming_distance (chunks.getD ii []) (chunks.getD jj []))).sum)).sum

/-- Embedding of `hamming_distance_between_chunks`
(src/crack/keylength.rs): the summed pairwise distance divided by the number
of chunks; with zero chunks this is `0.0 / 0.0`, i.e. NaN. -/
def hamming_distance_between_chunks (input : List ℕ) (chunksize : ℕ) : F :=
  let chunks := chunksExact input chunksize
  fdiv (some (pairsDistance chunks)) (some chunks.length)

/-- Modelled from the spec: the external crate call `linreg::lin_reg`
(missing from src/) fits the least-squares line `y = m·x + b` through the
points given the precomputed means, per spec §4.4; the crate fails (and the
caller's `unwrap` panics, `none` here) exactly when the x-variance
denominator is zero, and NaN inputs propagate into the slope and
intercept. -/
def lin_reg (xy : List (F × F)) (xmean ymean : F) : Option (F × F) :=
  let num := fsum (xy.map (fun p => fmul (fsub p.1 xmean) (fsub p.2 ymean)))
  let den := fsum (xy.map (fun p => fmul (fsub p.1 xmean) (fsub p.1 xmean)))
  if den = some 0 then none
  else
    let m := fdiv num den
    let b := fsub ymean (fmul m xmean)
    some (m, b)

/-- The raw per-keysize scores of `guesses` (src/crack/keylength.rs):
keysizes 3 to 69 inclusive, each with its normalized chunk distance. -/
def rawScores (ct : List ℕ) : List (ℕ × F) :=
  (List.range' 3 67).map (fun k => (k, hamming_distance_between_chunks ct k))

/-- The regression step of `guesses`: means over the 67 points, then the
crate fit. -/
def guessesFit (ct : List ℕ) : Option (F × F) :=
  let xy := (rawScores ct).map (fun p => ((some ((p.1 : ℚ)) : F), p.2))
  let xmean := fdiv (fsum (xy.map (fun p => p.1))) (some 67)
  let ymean := fdiv (fsum (xy.map (fun p => p.2))) (some 67)
  lin_reg xy xmean ymean

/-- The detrending step of `guesses`: replace each score `y` by
`((y - b) + m·x) / x`. -/
def detrended (ct : List ℕ) (m b : F) : List (ℕ × F) :=
  (rawScores ct).map (fun p =>
    (p.1, fdiv (fadd (fsub p.2 b) (fmul m (some ((p.1 : ℚ))))) (some ((p.1 : ℚ)))))

/-- Embedding of `guesses` (src/crack/keylength.rs): raw scores for keysizes
`3..70`, linear regression, detrend and normalize, then `sort_by` on the
scores ascending.  `none` models the two panics, threaded by `Option.bind`:
`lin_reg(..).unwrap()` on a degenerate fit, and `partial_cmp(..).unwrap()`
inside `sort_by` as soon as any score is NaN (every element of the 67-entry
vector takes part in some comparison). -/
def guesses (ciphertext : List ℕ) : Option (List (ℕ × F)) :=
  (guessesFit ciphertext).bind (fun mb =>
    let scored := detrended ciphertext mb.1 mb.2
    if scored.all (fun p => p.2.isSome) then
      some (sortBy (fun x y => fle x.2 y.2) scored)
    else none)

/-- Embedding of the bucket loop of `slice`
(src/crack/crack_known_keylength.rs): push character `i` of the ciphertext
into bucket `i % keylength`. -/
def sliceGo (keylength : ℕ) : List ℕ → ℕ → List (List ℕ) → List (List ℕ)
  | [], _, blocks => blocks
  | c :: cs, i, blocks =>
    sliceGo keylength cs (i + 1)
      (blocks.set (i % keylength) (blocks.getD (i % keylength) [] ++ [c]))

/-- Embedding of `slice` (src/crack/crack_known_keylength.rs): `keylength`
empty buckets, then the bucket loop over the ciphertext.  (With
`keylength = 0` the Rust source panics on `i % 0`; no caller uses 0.) -/
def slice (ciphertext : List ℕ) (keylength : ℕ) : List (List ℕ) :=
  sliceGo keylength ciphertext 0 (List.replicate keylength [])

/-- Embedding of `unslice` (src/crack/crack_known_keylength.rs): for every
row index `i` below the first block's length, walk the blocks and emit the
character at row `i` where present.  `none` models the panic of
`pt_blocks[0]` on an empty block list. -/
def unslice : List (List ℕ) → ℕ → Option (List ℕ)
  | [], _ => none
  | b0 :: rest, _ =>
    some ((List.range b0.length).flatMap
      (fun i => (b0 :: rest).filterMap (fun block => block[i]?)))

/-- Specification helper, not a source translation: the elements of `cs` that
land in bucket `j` when the running ciphertext index starts at `i` and
buckets are assigned by index mod `p`. -/
def colFrom (p i j : ℕ) : List ℕ → List ℕ
  | [] => []
  | c :: cs => (if i % p = j then [c] else []) ++ colFrom p (i + 1) j cs

/-- Embedding of the inner loop of `levenshtein` (src/dict.rs): walk `b`
paired with the running cache row, threading `distance_b` (the cell of the
old row one step back) and `result` (the cell just written); returns the
updated cache row and the final `result`. -/
def levRow (aElem : ℕ) : List (ℕ × ℕ) → ℕ → ℕ → List ℕ × ℕ
  | [], _, result => ([], result)
  | (bElem, cj) :: rest, distB, result =>
    let cost : ℕ := if aElem = bElem then 0 else 1
    let distA := distB + cost
    let r2 := min (result + 1) (min distA (cj + 1))
    let next := levRow aElem rest cj r2
    (r2 :: next.1, next.2)

/-- Embedding of the outer loop of `levenshtein` (src/dict.rs): one `levRow`
per element of `a`, row `i` starting from `result = i + 1`. -/
def levGo (b : List ℕ) : List ℕ → ℕ → List ℕ → ℕ → ℕ
  | [], _, _, result => result
  | aElem :: arest, i, cache, _ =>
    let step := levRow aElem (b.zip cache) i (i + 1)
    levGo b arest (i + 1) step.1 step.2

/-- Embedding of `levenshtein` (src/dict.rs): edit distance by the cache-row
dynamic program of the source, with the initial cache `1..=b.len()`; an
empty `a` short-circuits to `b.len()`. -/
def levenshtein (a b : List ℕ) : ℕ :=
  if a.isEmpty then b.length
  else levGo b a 0 (List.range' 1 b.length) 0

/-- Embedding of `BytesDictionary::best_levenshtein` (src/dict.rs): score
every dictionary word by edit distance from `word` and keep the first
minimum (Rust's `min_by_key`); `none` models the `expect` panic on an empty
dictionary. -/
def best_levenshtein (dict : List (List ℕ)) (word : List ℕ) : Option (List ℕ × ℕ) :=
  match dict.map (fun s => (s, levenshtein word s)) with
  | [] => none
  | x :: xs => some (xs.foldl (fun best y => if y.2 < best.2 then y else best) x)

/-- The value `usize::MAX` on a 64-bit target. -/
def USIZE_MAX : ℕ := 2 ^ 64 - 1

/-- Embedding of `Word::score` (src/crack/spellcheck.rs):
`(bytes_used as f32 / score as f32 * 1000.0) as usize`.  The quotient of the
two small integers and the product with 1000 are modelled exactly over `ℚ`;
the `as usize` cast truncates toward zero and saturates, so an edit distance
of `0` gives `+∞ as usize = usize::MAX` (and `0.0 / 0.0 = NaN` casts to 0;
unreachable, since probe lengths start at 1).  No `ε` appears anywhere: the
source divides by the raw edit distance. -/
def wscore (bytes_used score : ℕ) : ℕ :=
  if score = 0 then (if bytes_used = 0 then 0 else USIZE_MAX)
  else min USIZE_MAX (1000 * bytes_used / score)

/-- The candidate list of one `spellcheck` loop iteration
(src/crack/spellcheck.rs, the `for bytes_used in 1..rbound` loop with
`rbound = min(longest_word, next_slice.len())`): for each probe length, the
first-minimum dictionary match and its edit distance, as a triple
(word, score, bytes_used).  An empty dictionary produces no candidates (in
the source `best_levenshtein` panics there; that panic resurfaces as the
`unwrap` panic on the empty candidate list, `chooseWord` = `none`). -/
def nextWords (dict : List (List ℕ)) (longest : ℕ) (ns : List ℕ) :
    List (List ℕ × ℕ × ℕ) :=
  (List.range' 1 (min longest ns.length - 1)).filterMap (fun bu =>
    (best_levenshtein dict (ns.take bu)).map (fun ws => (ws.1, ws.2, bu)))

/-- The `max_by_key(|word| word.score()).unwrap()` step of `spellcheck`
(src/crack/spellcheck.rs): keep the last candidate of maximal score (Rust's
`max_by_key` returns the last maximal element); `none` models the `unwrap`
panic on an empty candidate list. -/
def chooseWord : List (List ℕ × ℕ × ℕ) → Option (List ℕ × ℕ × ℕ)
  | [] => none
  | x :: xs =>
    some (xs.foldl (fun best y =>
      if wscore best.2.2 best.2.1 ≤ wscore y.2.2 y.2.1 then y else best) x)

/-- The `while next_slice.len() > 1` loop of `spellcheck`
(src/crack/spellcheck.rs), recursion on fuel: every genuine iteration
consumes `bytes_used ≥ 1` input bytes, so fuel `length + 1` never runs out;
`none` models the `unwrap` panic. -/
def spellcheckGo (dict : List (List ℕ)) (longest : ℕ) : ℕ → List ℕ → Option (List ℕ)
  | 0, _ => none
  | fuel + 1, ns =>
    if 1 < ns.length then
      match chooseWord (nextWords dict longest ns) with
      | none => none
      | some best =>
        (spellcheckGo dict longest fuel (ns.drop best.2.2)).map
          (fun rest => best.1 ++ rest)
    else some []

/-- Embedding of `spellcheck` (src/crack/spellcheck.rs): longest dictionary
word length plus one, the re-segmentation loop, drop the trailing space
symbol (`Vec::pop`), and confidence
`levenshtein(recovered, input) * input confidence`.  `none` models the
panics (`max().unwrap()` on an empty dictionary and the loop `unwrap`). -/
def spellcheck (cracked : CrackResult) (dict : List (List ℕ)) : Option CrackResult :=
  match (dict.map (fun w => w.length)).max? with
  | none => none
  | some m =>
    match spellcheckGo dict (m + 1) (cracked.plaintext.length + 1) cracked.plaintext with
    | none => none
    | some pt =>
      some { plaintext := pt.dropLast
             confidence := fmul (some ((levenshtein pt.dropLast cracked.plaintext : ℚ)))
               cracked.confidence }

theorem den_cast_ne_zero (a : ℚ) : ((a.den : ℚ)) ≠ 0 :=
  Nat.cast_ne_zero.mpr a.den_nz

theorem num_eq_mul_den (a : ℚ) : (a.num : ℚ) = a * a.den :=
  (div_eq_iff (den_cast_ne_zero a)).mp (Rat.num_div_den a)

theorem qadd_eq (a b : ℚ) : qadd a b = a + b := by
  rw [qadd, Rat.mkRat_eq_div,
    div_eq_iff (by push_cast; exact mul_ne_zero (den_cast_ne_zero a) (den_cast_ne_zero b))]
  push_cast
  rw [num_eq_mul_den a, num_eq_mul_den b]
  ring

theorem qsub_eq (a b : ℚ) : qsub a b = a - b := by
  rw [qsub, Rat.mkRat_eq_div,
    div_eq_iff (by push_cast; exact mul_ne_zero (den_cast_ne_zero a) (den_cast_ne_zero b))]
  push_cast
  rw [num_eq_mul_den a, num_eq_mul_den b]
  ring

theorem qmul_eq (a b : ℚ) : qmul a b = a * b := by
  rw [qmul, Rat.mkRat_eq_div,
    div_eq_iff (by push_cast; exact mul_ne_zero (den_cast_ne_zero a) (den_cast_ne_zero b))]
  push_cast
  rw [num_eq_mul_den a, num_eq_mul_den b]
  ring

theorem qdiv_eq (a b : ℚ) : qdiv a b = a / b := by
  rw [qdiv, Rat.divInt_eq_div]
  rcases eq_or_ne b 0 with rfl | hb
  · simp
  · have hbn : (b.num : ℚ) ≠ 0 := by
      rw [num_eq_mul_den b]
      exact mul_ne_zero hb (den_cast_ne_zero b)
    push_cast
    rw [div_eq_div_iff (mul_ne_zero (den_cast_ne_zero a) hbn) hb]
    rw [num_eq_mul_den a, num_eq_mul_den b]
    ring

theorem qabs_eq (a : ℚ) : qabs a = |a| := by
  have h : |a| = |(a.num : ℚ)| / |(a.den : ℚ)| := by
    rw [← abs_div, Rat.num_div_den]
  rw [qabs, Rat.mkRat_eq_div, h, abs_of_pos (show (0:ℚ) < a.den by exact_mod_cast a.pos)]
  norm_num [Int.cast_natAbs]

theorem lt_iff_cross (a b : ℚ) : a < b ↔ a.num * b.den < b.num * a.den := by
  constructor
  · intro h
    have h2 : (a.num : ℚ) * b.den < (b.num : ℚ) * a.den := by
      rw [num_eq_mul_den a, num_eq_mul_den b]
      have hpos : (0:ℚ) < (a.den : ℚ) * b.den := by positivity
      calc a * ↑a.den * ↑b.den = a * (↑a.den * ↑b.den) := by ring
      _ < b * (↑a.den * ↑b.den) := mul_lt_mul_of_pos_right h hpos
      _ = b * ↑b.den * ↑a.den := by ring
    exact_mod_cast h2
  · intro h
    have h' : (a.num : ℚ) * b.den < (b.num : ℚ) * a.den := by exact_mod_cast h
    rw [num_eq_mul_den a, num_eq_mul_den b] at h'
    have hpos : (0:ℚ) < (a.den : ℚ) * b.den := by positivity
    have h2 : a * (↑a.den * ↑b.den) < b * (↑a.den * ↑b.den) := by
      calc a * (↑a.den * ↑b.den) = a * ↑a.den * ↑b.den := by ring
      _ < b * ↑b.den * ↑a.den := h'
      _ = b * (↑a.den * ↑b.den) := by ring
    exact lt_of_mul_lt_mul_right h2 hpos.le

theorem qblt_eq (a b : ℚ) : qblt a b = decide (a < b) := by
  rw [qblt]
  exact (decide_eq_decide.mpr (lt_iff_cross a b)).symm

theorem qble_eq (a b : ℚ) : qble a b = decide (a ≤ b) := by
  rw [qble]
  refine (decide_eq_decide.mpr ?_).symm
  rw [← not_lt, lt_iff_cross b a, not_lt]

theorem fadd_some (a b : ℚ) : fadd (some a) (some b) = some (a + b) := by
  simp [fadd, qadd_eq]

theorem fsub_some (a b : ℚ) : fsub (some a) (some b) = some (a - b) := by
  simp [fsub, qsub_eq]

theorem fmul_some (a b : ℚ) : fmul (some a) (some b) = some (a * b) := by
  simp [fmul, qmul_eq]

theorem fabs_some (a : ℚ) : fabs (some a) = some |a| := by
  simp [fabs, qabs_eq]

theorem fdiv_some (a b : ℚ) (hb : b ≠ 0) : fdiv (some a) (some b) = some (a / b) := by
  simp [fdiv, hb, qdiv_eq]

theorem flt_some (a b : ℚ) : flt (some a) (some b) = decide (a < b) := by
  simp [flt, qblt_eq]

theorem fle_some (a b : ℚ) : fle (some a) (some b) = decide (a ≤ b) := by
  simp [fle, qble_eq]

-- sanity checks (spec §8: slice yields p columns whose lengths sum to the input)
example : slice [1, 2, 3, 4, 5] 2 = [[1, 3, 5], [2, 4]] := by decide
example : unslice [[1, 3, 5], [2, 4]] 2 = some [1, 2, 3, 4, 5] := by decide
example : u8.shift 26 (-1) = 25 := by decide
example : u8.shift 0 (-14) = 13 := by decide

/-- The bucket loop appends, to every bucket `j`, exactly the input elements
whose running index is congruent to `j` modulo the key length. -/
theorem sliceGo_getElem? (p : ℕ) (hp : 1 ≤ p) (cs : List ℕ) :
    ∀ (i : ℕ) (blocks : List (List ℕ)), blocks.length = p → ∀ (j : ℕ),
    (sliceGo p cs i blocks)[j]? = (blocks[j]?).map (fun b => b ++ colFrom p i j cs) := by
  induction cs with
  | nil =>
    intro i blocks hlen j
    simp only [sliceGo, colFrom]
    cases blocks[j]? <;> simp
  | cons c cs ih =>
    intro i blocks hlen j
    have hiplt : i % p < blocks.length := by
      rw [hlen]
      exact Nat.mod_lt _ hp
    simp only [sliceGo]
    rw [ih (i + 1) _ (by simp [hlen]), List.getElem?_set]
    by_cases hij : i % p = j
    · subst hij
      have hb : blocks[i % p]? = some (blocks.getD (i % p) []) := by
        rw [List.getD_eq_getElem?_getD, List.getElem?_eq_getElem hiplt]
        rfl
      rw [if_pos rfl, if_pos hiplt, hb]
      simp only [Option.map_some']
      congr 1
      conv_rhs => rw [colFrom]
      rw [if_pos rfl, List.append_assoc]
    · simp only [if_neg hij, colFrom, if_neg hij, List.nil_append]

/-- The sliced ciphertext is exactly the list of the `p` residue columns. -/
theorem slice_eq_cols (ct : List ℕ) (p : ℕ) (hp : 1 ≤ p) :
    slice ct p = (List.range p).map (fun j => colFrom p 0 j ct) := by
  apply List.ext_getElem?
  intro j
  rw [slice, sliceGo_getElem? p hp ct 0 _ (by simp), List.getElem?_map, List.getElem?_replicate]
  by_cases hj : j < p
  · rw [List.getElem?_range hj]
    simp [hj]
  · rw [List.getElem?_eq_none (by simpa using Nat.le_of_not_lt hj)]
    simp [hj]

/-- Index arithmetic in `colFrom` only depends on the start index mod `p`. -/
theorem colFrom_mod (p j : ℕ) (cs : List ℕ) : ∀ i, colFrom p i j cs = colFrom p (i % p) j cs := by
  induction cs with
  | nil => intro i; simp [colFrom]
  | cons c cs ih =>
    intro i
    simp only [colFrom]
    rw [Nat.mod_mod_of_dvd i (dvd_refl p)]
    have hstep : colFrom p (i + 1) j cs = colFrom p (i % p + 1) j cs := by
      rw [ih (i + 1), ih (i % p + 1)]
      have : (i + 1) % p = (i % p + 1) % p := by
        conv_lhs => rw [Nat.add_mod]
        conv_rhs => rw [Nat.add_mod]
        rw [Nat.mod_mod_of_dvd i (dvd_refl p)]
      rw [this]
    rw [hstep]

/-- Splitting the input splits the column at the shifted start index. -/
theorem colFrom_append (p j : ℕ) (xs : List ℕ) :
    ∀ (i : ℕ) (ys : List ℕ),
    colFrom p i j (xs ++ ys) = colFrom p i j xs ++ colFrom p (i + xs.length) j ys := by
  induction xs with
  | nil => intro i ys; simp [colFrom]
  | cons x xs ih =>
    intro i ys
    have hidx : i + 1 + xs.length = i + (x :: xs).length := by
      simp only [List.length_cons]
      omega
    calc colFrom p i j ((x :: xs) ++ ys)
        = (if i % p = j then [x] else []) ++ colFrom p (i + 1) j (xs ++ ys) := rfl
      _ = (if i % p = j then [x] else []) ++
          (colFrom p (i + 1) j xs ++ colFrom p (i + 1 + xs.length) j ys) := by rw [ih (i + 1) ys]
      _ = ((if i % p = j then [x] else []) ++ colFrom p (i + 1) j xs) ++
          colFrom p (i + 1 + xs.length) j ys := by rw [List.append_assoc]
      _ = colFrom p i j (x :: xs) ++ colFrom p (i + (x :: xs).length) j ys := by
          rw [hidx]
          rfl

/-- A window that ends at or before index `p` and starts after `j` misses
column `j` entirely. -/
theorem colFrom_out (p j : ℕ) (xs : List ℕ) :
    ∀ i, j < i → i + xs.length ≤ p → colFrom p i j xs = [] := by
  induction xs with
  | nil => intro i _ _; simp [colFrom]
  | cons x xs ih =>
    intro i hji hlen
    simp only [List.length_cons] at hlen
    have hip : i < p := by omega
    simp only [colFrom, Nat.mod_eq_of_lt hip, if_neg (by omega : ¬ i = j)]
    exact ih (i + 1) (by omega) (by omega)

/-- A window of length at most `p - i` contributes to column `j` exactly its
element at offset `j - i`, if any. -/
theorem colFrom_window (p j : ℕ) (xs : List ℕ) :
    ∀ i, i ≤ j → j < p → i + xs.length ≤ p → colFrom p i j xs = (xs[j - i]?).toList := by
  induction xs with
  | nil => intro i _ _ _; simp [colFrom]
  | cons x xs ih =>
    intro i hij hjp hlen
    simp only [List.length_cons] at hlen
    have hip : i < p := by omega
    by_cases hije : i = j
    · subst hije
      simp only [colFrom, Nat.mod_eq_of_lt hip, if_pos rfl, Nat.sub_self]
      rw [colFrom_out p i xs (i + 1) (by omega) (by omega)]
      simp
    · have hjsub : j - i = (j - (i + 1)) + 1 := by omega
      simp only [colFrom, Nat.mod_eq_of_lt hip, if_neg hije, List.nil_append,
        ih (i + 1) (by omega) hjp (by omega), hjsub]
      simp

/-- Peeling one row: column `j` of the ciphertext is its `j`-th element (if
present) followed by column `j` of the ciphertext with the first `p`
characters dropped. -/
theorem colFrom_peel (p j : ℕ) (hp : 1 ≤ p) (hj : j < p) (ct : List ℕ) :
    colFrom p 0 j ct = (ct[j]?).toList ++ colFrom p 0 j (ct.drop p) := by
  conv_lhs => rw [← List.take_append_drop p ct]
  rw [colFrom_append p j (ct.take p) 0 (ct.drop p), Nat.zero_add,
    colFrom_window p j (ct.take p) 0 (Nat.zero_le j) hj
      (by simpa using List.length_take_le p ct),
    Nat.sub_zero, List.getElem?_take, if_pos hj,
    colFrom_mod p j (ct.drop p) (ct.take p).length]
  by_cases hnp : p ≤ ct.length
  · have hlen : (ct.take p).length = p := by
      rw [List.length_take]
      omega
    rw [hlen, Nat.mod_self]
  · have hdrop : ct.drop p = [] := List.drop_eq_nil_of_le (by omega)
    simp [colFrom, hdrop]

/-- Row extraction: entry `i` of column `j` is ciphertext position
`i * p + j`. -/
theorem colFrom_getElem? (p j : ℕ) (hp : 1 ≤ p) (hj : j < p) :
    ∀ (i : ℕ) (ct : List ℕ), (colFrom p 0 j ct)[i]? = ct[i * p + j]? := by
  intro i
  induction i with
  | zero =>
    intro ct
    rw [colFrom_peel p j hp hj ct]
    rcases h : ct[j]? with _ | c
    · have hge : ct.length ≤ j := List.getElem?_eq_none_iff.mp h
      have hdrop : ct.drop p = [] := List.drop_eq_nil_of_le (by omega)
      simp [colFrom, hdrop, h]
    · simp [h]
  | succ i ih =>
    intro ct
    rw [colFrom_peel p j hp hj ct]
    rcases h : ct[j]? with _ | c
    · have hge : ct.length ≤ j := List.getElem?_eq_none_iff.mp h
      have hdrop : ct.drop p = [] := List.drop_eq_nil_of_le (by omega)
      have hnone : ct[(i + 1) * p + j]? = none := List.getElem?_eq_none (by omega)
      rw [hnone]
      simp [colFrom, hdrop]
    · simp only [Option.toList_some, List.singleton_append, List.getElem?_cons_succ, ih (ct.drop p),
        List.getElem?_drop]
      congr 1
      ring

/-- A fold that at each step keeps either the accumulator or the next element
ends on a member of the initial accumulator together with the list. -/
theorem foldl_choice_mem {α : Type} (pick : α → α → α)
    (h : ∀ a b, pick a b = a ∨ pick a b = b) (x : α) (xs : List α) :
    xs.foldl pick x ∈ x :: xs := by
  induction xs generalizing x with
  | nil => simp
  | cons y ys ih =>
    rw [List.foldl_cons]
    have hx := ih (pick x y)
    rcases List.mem_cons.mp hx with hh | hh
    · rw [hh]
      rcases h x y with hc | hc <;> rw [hc]
      · exact List.mem_cons_self _ _
      · exact List.mem_cons.mpr (Or.inr (List.mem_cons_self _ _))
    · exact List.mem_cons.mpr (Or.inr (List.mem_cons.mpr (Or.inr hh)))

/-- Whatever `best_crack` returns was one of the candidate results. -/
theorem best_crack_mem {l : List CrackResult} {r : CrackResult}
    (h : best_crack l = some r) : r ∈ l := by
  match l with
  | [] => simp [best_crack] at h
  | [x] =>
    simp only [best_crack, Option.some.injEq] at h
    simp [h]
  | x :: y :: xs =>
    simp only [best_crack] at h
    split at h
    · have hm := foldl_choice_mem
        (fun acc z => if flt z.confidence acc.confidence then z else acc)
        (fun a b => by by_cases hb : flt b.confidence a.confidence = true <;> simp [hb]) x (y :: xs)
      rw [Option.some.injEq] at h
      rw [h] at hm
      exact hm
    · exact absurd h (by simp)

/-- C9: for every symbol below 27 and every `i8` shift amount, the reduced
amount stays below 27 so the internal `u8` addition stays far below 256
(never overflows), the shifted symbol is again below 27, and consequently
every plaintext byte produced by `crack_block` on an in-alphabet block lies
in the 27-symbol alphabet. -/
theorem C9_shift_stays_in_alphabet :
    (∀ (s : ℕ) (amount : ℤ), s < 27 → -128 ≤ amount → amount < 128 →
      s + (amount % (27 : ℤ)).toNat ≤ 255 ∧ u8.shift s amount < 27) ∧
    (∀ (col : List ℕ) (B : Frequencies) (r : CrackResult),
      (∀ b ∈ col, b < 27) → crack_block col B = some r →
      ∀ b ∈ r.plaintext, b < 27) := by
  constructor
  · intro s amount hs _ _
    have hlt : amount % (27 : ℤ) < 27 := Int.emod_lt_of_pos amount (by norm_num)
    have htn : (amount % (27 : ℤ)).toNat ≤ 26 := by omega
    refine ⟨by omega, ?_⟩
    exact Nat.mod_lt _ (by norm_num [alphabetLen])
  · intro col B r _ hcb b hb
    have hr := best_crack_mem hcb
    rcases List.mem_map.mp hr with ⟨s, _, hs⟩
    rw [← hs] at hb
    simp only at hb
    rcases List.mem_map.mp hb with ⟨n, _, hn⟩
    rw [← hn]
    exact Nat.mod_lt _ (by norm_num [alphabetLen])

set_option maxRecDepth 100000 in
/-- C9 witness: concrete instantiation at symbol 25, amount -3, and a
concrete single-symbol block. -/
theorem C9_witness :
    (25 : ℕ) + ((-3 : ℤ) % 27).toNat ≤ 255 ∧ u8.shift 25 (-3) < 27 ∧
    ∀ b ∈ (CrackResult.mk [0] (some 0)).plaintext, b < 27 := by
  have h1 := C9_shift_stays_in_alphabet.1 25 (-3) (by norm_num) (by norm_num) (by norm_num)
  refine ⟨h1.1, h1.2, ?_⟩
  have h2 := C9_shift_stays_in_alphabet.2 [25]
    (Frequencies.from_bytes [0]) (CrackResult.mk [0] (some 0))
    (by intro b hb; simp at hb; omega)
  intro b hb
  exact h2 (by decide) b hb

/-- C5 counterexample: on the empty byte sequence, bin 0 of
`Frequencies::from_bytes` is NaN (the division `0.0 / 0.0`), not 0; the
claim that all 27 bins are 0 is false. -/
theorem C5_counterexample :
    ¬ (∀ i : Fin 27, (Frequencies.from_bytes []).values i = some 0) := by
  intro h
  have h0 := h 0
  simp [Frequencies.from_bytes, fdiv] at h0

/-- C5 amended: on the empty byte sequence every bin of
`Frequencies::from_bytes` is NaN, because each of the 27 zero counts is
divided by the zero length (`0.0 / 0.0`). -/
theorem C5_from_bytes_empty_all_nan :
    ∀ i : Fin 27, (Frequencies.from_bytes []).values i = none := by
  intro i
  simp [Frequencies.from_bytes, fdiv]

/-- Reading one ciphertext position per range index reconstructs a window. -/
theorem range_filterMap_getElem (l : List ℕ) (m : ℕ) :
    ∀ k, (List.range k).filterMap (fun j => l[m + j]?) = (l.drop m).take k := by
  intro k
  induction k with
  | zero => simp
  | succ k ih =>
    rw [List.range_succ, List.filterMap_append, ih, List.take_succ, List.getElem?_drop]
    rcases h : l[m + k]? with _ | c <;> simp [List.filterMap_cons, h]

/-- Row `i` of the sliced ciphertext, read across all blocks in order as
`unslice` does, is the `i`-th length-`p` window of the ciphertext. -/
theorem slice_row (ct : List ℕ) (p : ℕ) (hp : 1 ≤ p) (i : ℕ) :
    (slice ct p).filterMap (fun b => b[i]?) = (ct.drop (i * p)).take p := by
  rw [slice_eq_cols ct p hp, List.filterMap_map]
  have hcong : ∀ j ∈ List.range p,
      ((fun b => b[i]?) ∘ (fun j => colFrom p 0 j ct)) j = (fun j => ct[i * p + j]?) j := by
    intro j hj
    exact colFrom_getElem? p j hp (List.mem_range.mp hj) i ct
  rw [List.filterMap_congr hcong]
  exact range_filterMap_getElem ct (i * p) p

/-- Concatenating the first block's worth of rows reproduces the
ciphertext. -/
theorem flat_rows (p : ℕ) (hp : 1 ≤ p) :
    ∀ (n : ℕ) (ct : List ℕ), ct.length ≤ n →
    (List.range (colFrom p 0 0 ct).length).flatMap (fun i => (ct.drop (i * p)).take p) = ct := by
  intro n
  induction n with
  | zero =>
    intro ct hlen
    have hnil : ct = [] := List.eq_nil_of_length_eq_zero (by omega)
    subst hnil
    simp [colFrom]
  | succ n ih =>
    intro ct hlen
    rcases ct with _ | ⟨c, ct1⟩
    · simp [colFrom]
    · have hpeel : colFrom p 0 0 (c :: ct1) = c :: colFrom p 0 0 ((c :: ct1).drop p) := by
        rw [colFrom_peel p 0 hp hp]
        simp
      rw [hpeel, List.length_cons, List.range_succ_eq_map, List.flatMap_cons, List.flatMap_map]
      have htailfun : ∀ i ∈ List.range (colFrom p 0 0 ((c :: ct1).drop p)).length,
          ((c :: ct1).drop (Nat.succ i * p)).take p =
          ((((c :: ct1).drop p).drop (i * p)).take p) := by
        intro i _
        rw [List.drop_drop]
        have hidx : Nat.succ i * p = p + i * p := by
          rw [Nat.succ_mul]
          omega
        rw [hidx]
      rw [List.flatMap_congr htailfun,
        ih ((c :: ct1).drop p) (by
          rw [List.length_drop]
          simp only [List.length_cons] at hlen ⊢
          omega)]
      simp
/-- Round trip of `slice` and `unslice`, for any byte list. -/
theorem slice_unslice_eq (ct : List ℕ) (p : ℕ) (hp : 1 ≤ p) :
    unslice (slice ct p) p = some ct := by
  obtain ⟨m, rfl⟩ : ∃ m, p = m + 1 := ⟨p - 1, by omega⟩
  have hcols := slice_eq_cols ct (m + 1) hp
  have hrows : ∀ i ∈ List.range (colFrom (m + 1) 0 0 ct).length,
      (slice ct (m + 1)).filterMap (fun b => b[i]?) =
      (ct.drop (i * (m + 1))).take (m + 1) :=
    fun i _ => slice_row ct (m + 1) hp i
  conv_lhs => rw [hcols, List.range_succ_eq_map, List.map_cons]
  rw [unslice]
  rw [show (colFrom (m + 1) 0 0 ct :: List.map (fun j => colFrom (m + 1) 0 j ct)
      (List.map Nat.succ (List.range m))) = slice ct (m + 1) by
    rw [hcols, List.range_succ_eq_map, List.map_cons, List.map_map]]
  rw [List.flatMap_congr hrows]
  rw [flat_rows (m + 1) hp ct.length ct le_rfl]

/-- C1: for every ciphertext of alphabet symbols and every period `p ≥ 1`,
`unslice` applied to `slice` with the same period returns exactly the
original ciphertext, every position restored to its original order. -/
theorem C1_slice_unslice_roundtrip (ct : List ℕ) (p : ℕ) (hp : 1 ≤ p)
    (hsym : ∀ b ∈ ct, b < 27) : unslice (slice ct p) p = some ct :=
  slice_unslice_eq ct p hp

/-- C1 witness: the round trip at a concrete in-alphabet ciphertext and
period 3. -/
theorem C1_witness :
    (1 : ℕ) ≤ 3 ∧ (∀ b ∈ [0, 26, 13, 5, 7], b < 27) ∧
    unslice (slice [0, 26, 13, 5, 7] 3) 3 = some [0, 26, 13, 5, 7] :=
  ⟨by norm_num, by decide,
    C1_slice_unslice_roundtrip [0, 26, 13, 5, 7] 3 (by norm_num) (by decide)⟩

/-- Block lengths of `slice` are the residue-class counts. -/
theorem slice_block_length (ct : List ℕ) (p : ℕ) (hp : 1 ≤ p) (j : ℕ) (hj : j < p) :
    (slice ct p).getD j [] = colFrom p 0 j ct := by
  rw [slice_eq_cols ct p hp, List.getD_eq_getElem?_getD, List.getElem?_map,
    List.getElem?_range hj]
  rfl

/-- Residue columns only get shorter as the residue grows. -/
theorem colFrom_length_mono (p : ℕ) (hp : 1 ≤ p) :
    ∀ (n : ℕ) (ct : List ℕ), ct.length ≤ n → ∀ j k, j ≤ k → k < p →
    (colFrom p 0 k ct).length ≤ (colFrom p 0 j ct).length := by
  intro n
  induction n with
  | zero =>
    intro ct hlen j k hjk hkp
    have hnil : ct = [] := List.eq_nil_of_length_eq_zero (by omega)
    subst hnil
    simp [colFrom]
  | succ n ih =>
    intro ct hlen j k hjk hkp
    rw [colFrom_peel p j hp (by omega) ct, colFrom_peel p k hp hkp ct]
    simp only [List.length_append]
    have htail := ih (ct.drop p) (by simp only [List.length_drop]; omega) j k hjk hkp
    have hhead : (ct[k]?).toList.length ≤ (ct[j]?).toList.length := by
      rcases h : ct[k]? with _ | c
      · simp
      · have hk : k < ct.length := by
          by_contra hcon
          rw [List.getElem?_eq_none (by omega)] at h
          cases h
        have hj2 : j < ct.length := by omega
        rw [List.getElem?_eq_getElem hj2]
        simp
    omega

/-- Sums over a list split pointwise. -/
theorem map_sum_add {α : Type} (l : List α) (f g : α → ℕ) :
    (l.map (fun x => f x + g x)).sum = (l.map f).sum + (l.map g).sum := by
  induction l with
  | nil => simp
  | cons x xs ih => simp [ih]; omega

/-- Summed head contributions of the residue columns count `min p n`
positions. -/
theorem sum_head_contrib (ct : List ℕ) :
    ∀ p, ((List.range p).map (fun j => (ct[j]?).toList.length)).sum = min p ct.length := by
  intro p
  induction p with
  | zero => simp
  | succ p ih =>
    rw [List.range_succ, List.map_append, List.sum_append, ih]
    simp only [List.map_cons, List.map_nil, List.sum_cons, List.sum_nil]
    rcases Nat.lt_or_ge p ct.length with h | h
    · rw [List.getElem?_eq_getElem h]
      simp
      omega
    · rw [List.getElem?_eq_none h]
      simp
      omega

/-- The residue-column lengths sum to the ciphertext length: no position is
lost or duplicated by slicing. -/
theorem col_length_sum (p : ℕ) (hp : 1 ≤ p) :
    ∀ (n : ℕ) (ct : List ℕ), ct.length ≤ n →
    ((List.range p).map (fun j => (colFrom p 0 j ct).length)).sum = ct.length := by
  intro n
  induction n with
  | zero =>
    intro ct hlen
    have hnil : ct = [] := List.eq_nil_of_length_eq_zero (by omega)
    subst hnil
    simp [colFrom]
  | succ n ih =>
    intro ct hlen
    have hcong : ∀ j ∈ List.range p,
        (colFrom p 0 j ct).length =
        (ct[j]?).toList.length + (colFrom p 0 j (ct.drop p)).length := by
      intro j hj
      rw [colFrom_peel p j hp (List.mem_range.mp hj) ct, List.length_append]
    rw [List.map_congr_left hcong, map_sum_add, sum_head_contrib,
      ih (ct.drop p) (by simp only [List.length_drop]; omega)]
    simp only [List.length_drop]
    omega

/-- C10: with `p ≥ 1` the `slice` blocks have non-increasing lengths (so the
first block is at least as long as every other), and `unslice` emits exactly
the sum of all block lengths, visiting every row of every block. -/
theorem C10_first_block_longest (ct : List ℕ) (p : ℕ) (hp : 1 ≤ p) :
    (∀ j k, j ≤ k → k < p →
      ((slice ct p).getD k []).length ≤ ((slice ct p).getD j []).length) ∧
    (∃ out, unslice (slice ct p) p = some out ∧
      out.length = (((slice ct p).map List.length).sum)) := by
  constructor
  · intro j k hjk hkp
    rw [slice_block_length ct p hp j (by omega), slice_block_length ct p hp k hkp]
    exact colFrom_length_mono p hp ct.length ct le_rfl j k hjk hkp
  · refine ⟨ct, slice_unslice_eq ct p hp, ?_⟩
    rw [slice_eq_cols ct p hp, List.map_map]
    rw [show (List.length ∘ fun j => colFrom p 0 j ct) = fun j => (colFrom p 0 j ct).length
      from rfl]
    exact (col_length_sum p hp ct.length ct le_rfl).symm

theorem flt_iff (a b : ℚ) : flt (some a) (some b) = true ↔ a < b := by
  simp [flt_some]

theorem fle_iff (a b : ℚ) : fle (some a) (some b) = true ↔ a ≤ b := by
  simp [fle_some]

theorem flt_some_iff {a b : F} (h : flt a b = true) : ∃ qa qb, a = some qa ∧ b = some qb := by
  rcases a with _ | qa <;> rcases b with _ | qb <;> simp [flt] at h ⊢

theorem fle_some_iff {a b : F} (h : fle a b = true) : ∃ qa qb, a = some qa ∧ b = some qb := by
  rcases a with _ | qa <;> rcases b with _ | qb <;> simp [fle] at h ⊢

theorem fle_refl_of_isSome (a : F) (h : a.isSome) : fle a a = true := by
  obtain ⟨q, hq⟩ := Option.isSome_iff_exists.mp h
  rw [hq]
  exact (fle_iff q q).mpr le_rfl

theorem fle_of_not_flt {a b : F} (ha : a.isSome) (hb : b.isSome) (h : ¬ flt a b = true) :
    fle b a = true := by
  obtain ⟨qa, hqa⟩ := Option.isSome_iff_exists.mp ha
  obtain ⟨qb, hqb⟩ := Option.isSome_iff_exists.mp hb
  subst hqa
  subst hqb
  rw [flt_iff] at h
  exact (fle_iff qb qa).mpr (by linarith [not_lt.mp h])

theorem fle_trans_f {a b c : F} (h1 : fle a b = true) (h2 : fle b c = true) : fle a c = true := by
  rcases a with _ | qa <;> rcases b with _ | qb <;> rcases c with _ | qc <;>
    simp [fle, qble_eq] at h1 h2 ⊢ <;> linarith

theorem flt_of_fle_of_flt {a b c : F} (h1 : fle a b = true) (h2 : flt b c = true) :
    flt a c = true := by
  rcases a with _ | qa <;> rcases b with _ | qb <;> rcases c with _ | qc <;>
    simp [fle, flt, qble_eq, qblt_eq] at h1 h2 ⊢ <;> linarith

theorem flt_of_flt_of_fle {a b c : F} (h1 : flt a b = true) (h2 : fle b c = true) :
    flt a c = true := by
  rcases a with _ | qa <;> rcases b with _ | qb <;> rcases c with _ | qc <;>
    simp [fle, flt, qble_eq, qblt_eq] at h1 h2 ⊢ <;> linarith

theorem fle_of_flt {a b : F} (h : flt a b = true) : fle a b = true := by
  obtain ⟨qa, qb, rfl, rfl⟩ := flt_some_iff h
  rw [flt_iff] at h
  exact (fle_iff qa qb).mpr h.le

/-- The `min_by` fold of Rust: starting from `x`, replace the accumulator
only on a strictly smaller key.  The result is the element at the first
position attaining the minimum key: it is in the list, its key is less than
or equal to every key, and strictly less than the key of every earlier
position. -/
theorem foldl_min_first {α : Type} (key : α → F) (d : α) :
    ∀ (xs : List α) (x : α),
    (∀ y ∈ x :: xs, (key y).isSome) →
    ∃ i, i < (x :: xs).length ∧
      xs.foldl (fun acc y => if flt (key y) (key acc) then y else acc) x = (x :: xs).getD i d ∧
      (∀ j, j < (x :: xs).length →
        fle (key ((x :: xs).getD i d)) (key ((x :: xs).getD j d)) = true) ∧
      (∀ j, j < i → flt (key ((x :: xs).getD i d)) (key ((x :: xs).getD j d)) = true) := by
  intro xs
  induction xs with
  | nil =>
    intro x hsome
    refine ⟨0, by simp, by simp, ?_, by omega⟩
    intro j hj
    have hj0 : j = 0 := by simpa using hj
    subst hj0
    exact fle_refl_of_isSome _ (hsome x (by simp))
  | cons y ys ih =>
    intro x hsome
    rw [List.foldl_cons]
    by_cases hlt : flt (key y) (key x) = true
    · rw [if_pos hlt]
      obtain ⟨i, hi, hfold, hmin, hfirst⟩ :=
        ih y (fun z hz => hsome z (List.mem_cons.mpr (Or.inr hz)))
      refine ⟨i + 1, by simp only [List.length_cons] at hi ⊢; omega, hfold, ?_, ?_⟩
      · intro j hj
        rcases j with _ | j
        · exact fle_of_flt (flt_of_fle_of_flt (hmin 0 (by simp)) hlt)
        · exact hmin j (by simp only [List.length_cons] at hj ⊢; omega)
      · intro j hj
        rcases j with _ | j
        · exact flt_of_fle_of_flt (hmin 0 (by simp)) hlt
        · exact hfirst j (by omega)
    · rw [if_neg hlt]
      have hxys : ∀ z ∈ x :: ys, (key z).isSome := by
        intro z hz
        rcases List.mem_cons.mp hz with rfl | hz2
        · exact hsome z (by simp)
        · exact hsome z (List.mem_cons.mpr (Or.inr (List.mem_cons.mpr (Or.inr hz2))))
      obtain ⟨i, hi, hfold, hmin, hfirst⟩ := ih x hxys
      have hxley : fle (key x) (key y) = true :=
        fle_of_not_flt (hsome y (by simp)) (hsome x (by simp)) hlt
      rcases i with _ | k
      · refine ⟨0, by simp, hfold, ?_, by omega⟩
        intro j hj
        rcases j with _ | j
        · exact fle_refl_of_isSome _ (hsome x (by simp))
        · rcases j with _ | j
          · exact hxley
          · exact hmin (j + 1) (by simp only [List.length_cons] at hj ⊢; omega)
      · refine ⟨k + 2, by simp only [List.length_cons] at hi ⊢; omega, hfold, ?_, ?_⟩
        · intro j hj
          have hrx : fle (key ((x :: ys).getD (k + 1) d)) (key x) = true := hmin 0 (by simp)
          rcases j with _ | j
          · exact hrx
          · rcases j with _ | j
            · exact fle_trans_f hrx hxley
            · exact hmin (j + 1) (by simp only [List.length_cons] at hj ⊢; omega)
        · intro j hj
          have hrltx : flt (key ((x :: ys).getD (k + 1) d)) (key x) = true := hfirst 0 (by omega)
          rcases j with _ | j
          · exact hrltx
          · rcases j with _ | j
            · exact flt_of_flt_of_fle hrltx hxley
            · exact hfirst (j + 1) (by omega)

/-- C10 witness: the block-length ordering and the covering output at a
concrete ciphertext and period. -/
theorem C10_witness :
    ((slice [4, 9, 2, 7] 3).getD 2 []).length ≤ ((slice [4, 9, 2, 7] 3).getD 0 []).length ∧
    ∃ out, unslice (slice [4, 9, 2, 7] 3) 3 = some out ∧
      out.length = ((slice [4, 9, 2, 7] 3).map List.length).sum := by
  have h := C10_first_block_longest [4, 9, 2, 7] 3 (by norm_num)
  exact ⟨h.1 0 2 (by norm_num) (by norm_num), h.2⟩

theorem foldl_fadd_isSome (l : List F) :
    ∀ acc : F, acc.isSome → (∀ x ∈ l, x.isSome) → (l.foldl fadd acc).isSome := by
  induction l with
  | nil => intro acc hacc _; simpa using hacc
  | cons x xs ih =>
    intro acc hacc hall
    rw [List.foldl_cons]
    refine ih (fadd acc x) ?_ (fun z hz => hall z (by simp [hz]))
    obtain ⟨qa, hqa⟩ := Option.isSome_iff_exists.mp hacc
    obtain ⟨qx, hqx⟩ := Option.isSome_iff_exists.mp (hall x (by simp))
    rw [hqa, hqx, fadd_some]
    rfl

theorem fsum_isSome (l : List F) (h : ∀ x ∈ l, x.isSome) : (fsum l).isSome :=
  foldl_fadd_isSome l (some 0) rfl h

theorem from_bytes_values_isSome (bytes : List ℕ) (hne : bytes ≠ []) :
    ∀ i, ((Frequencies.from_bytes bytes).values i).isSome := by
  intro i
  have hlen : ((bytes.length : ℚ)) ≠ 0 := by
    have : bytes.length ≠ 0 := fun h => hne (List.eq_nil_of_length_eq_zero h)
    exact_mod_cast this
  simp [Frequencies.from_bytes, fdiv, hlen]

theorem compare_isSome (a b : Frequencies)
    (ha : ∀ i, (a.values i).isSome) (hb : ∀ i, (b.values i).isSome) :
    (Frequencies.compare a b).isSome := by
  apply fsum_isSome
  intro x hx
  rcases List.mem_map.mp hx with ⟨i, _, hi⟩
  obtain ⟨qa, hqa⟩ := Option.isSome_iff_exists.mp (ha i)
  obtain ⟨qb, hqb⟩ := Option.isSome_iff_exists.mp (hb i)
  rw [← hi, hqa, hqb, fsub_some, fabs_some]
  rfl

/-- Looking up index `i` of a mapped range gives the function value. -/
theorem getD_map_range {α : Type} (f : ℕ → α) (n i : ℕ) (hi : i < n) (d : α) :
    ((List.range n).map f).getD i d = f i := by
  rw [List.getD_eq_getElem?_getD, List.getElem?_map, List.getElem?_range hi]
  rfl

/-- The behaviour of `best_crack` on the mapped shift range: under NaN-free
confidences it returns the candidate at the smallest index attaining the
minimum confidence. -/
theorem best_crack_range (f : ℕ → CrackResult) (m : ℕ)
    (hsome : ∀ s, s < m + 2 → ((f s).confidence).isSome) :
    ∃ i, i < m + 2 ∧ best_crack ((List.range (m + 2)).map f) = some (f i) ∧
      (∀ j, j < m + 2 → fle ((f i).confidence) ((f j).confidence) = true) ∧
      (∀ j, j < i → flt ((f i).confidence) ((f j).confidence) = true) := by
  have hshape : (List.range (m + 2)).map f =
      f 0 :: f 1 :: ((List.range m).map (fun t => f (t + 2))) := by
    rw [List.range_succ_eq_map, List.range_succ_eq_map]
    simp [List.map_map, Function.comp]
  have hmem : ∀ y ∈ (List.range (m + 2)).map f, (y.confidence).isSome := by
    intro y hy
    rcases List.mem_map.mp hy with ⟨s, hs, rfl⟩
    exact hsome s (List.mem_range.mp hs)
  obtain ⟨i, hi, hfold, hmin, hfirst⟩ := foldl_min_first CrackResult.confidence (f 0)
    (f 1 :: (List.range m).map (fun t => f (t + 2))) (f 0)
    (by
      rw [← hshape]
      exact hmem)
  rw [← hshape] at hfold hmin hfirst hi
  have hgetD : ∀ j, j < m + 2 → ((List.range (m + 2)).map f).getD j (f 0) = f j := by
    intro j hj
    exact getD_map_range f (m + 2) j hj (f 0)
  have hlen : ((List.range (m + 2)).map f).length = m + 2 := by simp
  rw [hlen] at hi hmin
  refine ⟨i, hi, ?_, ?_, ?_⟩
  · rw [hshape, best_crack]
    rw [if_pos (by
      rw [← hshape]
      exact List.all_eq_true.mpr (fun y hy => hmem y hy))]
    rw [hfold, hgetD i hi]
  · intro j hj
    have := hmin j hj
    rw [hgetD i hi, hgetD j hj] at this
    exact this
  · intro j hj
    have := hfirst j hj
    rw [hgetD i hi, hgetD j (by omega)] at this
    exact this

set_option maxRecDepth 100000 in
/-- C2 counterexample: with the ciphertext column `[0]` (a single letter a)
and a baseline putting half weight on symbol 1 and half on symbol 26,
`crack_block` returns the column shifted by `+1` (plaintext `[1]`), while the
spec's description — shifts applied as `-s`, ties to the smallest `s` —
returns `[26]`; the claim as stated is therefore false. -/
theorem C2_counterexample :
    (crack_block [0] counterBaseline).map CrackResult.plaintext = some [1] ∧
    (crack_block_spec_neg [0] counterBaseline).plaintext = [26] ∧
    (crack_block [0] counterBaseline).map CrackResult.plaintext ≠
      some ((crack_block_spec_neg [0] counterBaseline).plaintext) := by
  refine ⟨by decide, by decide, by decide⟩

/-- C2 amended: `crack_block` tries every shift `s ∈ [0,27)` applied as `+s`
(not `-s`) to every symbol, picks the shift whose shifted column has minimum
L1 distance to the baseline, returns that shifted column as plaintext with
the minimum distance as confidence, and among equal distances picks the
smallest shift. -/
theorem C2_crack_block_amended (col : List ℕ) (B : Frequencies)
    (hcol : col ≠ []) (hB : ∀ i, (B.values i).isSome) :
    ∃ s : ℕ, s < 27 ∧
      crack_block col B =
        some (CrackResult.mk (col.map (fun n => u8.shift n (s : ℤ))) (shiftDist col B s)) ∧
      (∀ t, t < 27 → fle (shiftDist col B s) (shiftDist col B t) = true) ∧
      (∀ t, t < s → flt (shiftDist col B s) (shiftDist col B t) = true) := by
  have hsome : ∀ s : ℕ, s < 25 + 2 →
      ((CrackResult.mk (col.map (fun n => u8.shift n (s : ℤ))) (shiftDist col B s)).confidence).isSome := by
    intro s _
    exact compare_isSome B _ hB
      (from_bytes_values_isSome _ (by simpa using hcol))
  obtain ⟨i, hi, heq, hmin, hfirst⟩ := best_crack_range
    (fun s => CrackResult.mk (col.map (fun n => u8.shift n (s : ℤ))) (shiftDist col B s))
    25 hsome
  exact ⟨i, hi, heq, hmin, hfirst⟩

/-- C2 witness: the amended behaviour instantiated on the concrete column
`[0]` with the concrete baseline. -/
theorem C2_witness :
    ∃ s : ℕ, s < 27 ∧
      crack_block [0] counterBaseline =
        some (CrackResult.mk ([0].map (fun n => u8.shift n (s : ℤ)))
          (shiftDist [0] counterBaseline s)) ∧
      (∀ t, t < 27 → fle (shiftDist [0] counterBaseline s) (shiftDist [0] counterBaseline t) = true) ∧
      (∀ t, t < s → flt (shiftDist [0] counterBaseline s) (shiftDist [0] counterBaseline t) = true) :=
  C2_crack_block_amended [0] counterBaseline (by decide)
    (by
      intro i
      by_cases h : ((i : ℕ) = 1 ∨ (i : ℕ) = 26) <;> simp [counterBaseline, h])

theorem insertLe_perm {α : Type} (le : α → α → Bool) (a : α) (l : List α) :
    List.Perm (insertLe le a l) (a :: l) := by
  induction l with
  | nil => exact List.Perm.refl _
  | cons b bs ih =>
    by_cases h : le a b = true
    · simp [insertLe, h]
    · simp only [insertLe, if_neg h]
      exact (ih.cons b).trans (List.Perm.swap a b bs)

theorem sortBy_perm {α : Type} (le : α → α → Bool) (l : List α) :
    List.Perm (sortBy le l) l := by
  induction l with
  | nil => exact List.Perm.refl _
  | cons x xs ih =>
    exact (insertLe_perm le x (sortBy le xs)).trans (ih.cons x)

theorem insertLe_sorted {α : Type} (le : α → α → Bool)
    (htot : ∀ a b, le a b = true ∨ le b a = true)
    (htrans : ∀ a b c, le a b = true → le b c = true → le a c = true)
    (a : α) (l : List α) (hl : l.Pairwise (fun x y => le x y = true)) :
    (insertLe le a l).Pairwise (fun x y => le x y = true) := by
  induction l with
  | nil => simp [insertLe]
  | cons b bs ih =>
    rcases List.pairwise_cons.mp hl with ⟨hb, hbs⟩
    by_cases h : le a b = true
    · simp only [insertLe, if_pos h]
      refine List.pairwise_cons.mpr ⟨?_, hl⟩
      intro y hy
      rcases List.mem_cons.mp hy with rfl | hy2
      · exact h
      · exact htrans a b y h (hb y hy2)
    · simp only [insertLe, if_neg h]
      refine List.pairwise_cons.mpr ⟨?_, ih hbs⟩
      intro y hy
      have hy3 : y ∈ a :: bs := (insertLe_perm le a bs).mem_iff.mp hy
      rcases List.mem_cons.mp hy3 with rfl | hy4
      · exact (htot y b).resolve_left h
      · exact hb y hy4

theorem sortBy_sorted {α : Type} (le : α → α → Bool)
    (htot : ∀ a b, le a b = true ∨ le b a = true)
    (htrans : ∀ a b c, le a b = true → le b c = true → le a c = true)
    (l : List α) : (sortBy le l).Pairwise (fun x y => le x y = true) := by
  induction l with
  | nil => simp [sortBy]
  | cons x xs ih => exact insertLe_sorted le htot htrans x (sortBy le xs) ih

theorem lexLe_total : ∀ a b : List Char, lexLe a b = true ∨ lexLe b a = true := by
  intro a
  induction a with
  | nil => intro b; left; rfl
  | cons x xs ih =>
    intro b
    cases b with
    | nil => right; rfl
    | cons y ys =>
      rcases Nat.lt_trichotomy x.toNat y.toNat with h | h | h
      · left
        simp [lexLe, h]
      · have hxy : ¬ x.toNat < y.toNat := by omega
        have hyx : ¬ y.toNat < x.toNat := by omega
        rcases ih ys with h2 | h2
        · left
          simp [lexLe, hxy, hyx, h2]
        · right
          simp [lexLe, hxy, hyx, h2]
      · right
        simp [lexLe, h]

theorem lexLe_trans :
    ∀ a b c : List Char, lexLe a b = true → lexLe b c = true → lexLe a c = true := by
  intro a
  induction a with
  | nil => intro b c _ _; rfl
  | cons x xs ih =>
    intro b c hab hbc
    cases b with
    | nil => simp [lexLe] at hab
    | cons y ys =>
      cases c with
      | nil => simp [lexLe] at hbc
      | cons z zs =>
        simp only [lexLe] at hab hbc ⊢
        by_cases h1 : x.toNat < y.toNat
        · by_cases h2 : y.toNat < z.toNat
          · simp [show x.toNat < z.toNat by omega]
          · by_cases h3 : z.toNat < y.toNat
            · rw [if_neg h2, if_pos h3] at hbc
              cases hbc
            · simp [show x.toNat < z.toNat by omega]
        · by_cases h4 : y.toNat < x.toNat
          · rw [if_neg h1, if_pos h4] at hab
            cases hab
          · by_cases h2 : y.toNat < z.toNat
            · simp [show x.toNat < z.toNat by omega]
            · by_cases h3 : z.toNat < y.toNat
              · rw [if_neg h2, if_pos h3] at hbc
                cases hbc
              · rw [if_neg h1, if_neg h4] at hab
                rw [if_neg h2, if_neg h3] at hbc
                have hxz1 : ¬ x.toNat < z.toNat := by omega
                have hxz2 : ¬ z.toNat < x.toNat := by omega
                rw [if_neg hxz1, if_neg hxz2]
                exact ih ys zs hab hbc

/-- C7 counterexample: `Dictionary::from_string` on the source text
`abc abc` produces the word `abc` at both index 0 and index 1: the word list
is not duplicate-free. -/
theorem C7_counterexample :
    (Dictionary.from_string
      ['a', 'b', 'c', ' ', 'a', 'b', 'c'])[0]? = some ['a', 'b', 'c'] ∧
    (Dictionary.from_string
      ['a', 'b', 'c', ' ', 'a', 'b', 'c'])[1]? = some ['a', 'b', 'c'] ∧
    (0 : ℕ) ≠ 1 :=
  ⟨by decide, by decide, by decide⟩

/-- C7 amended: `Dictionary::from_string` sorts the lowercased, alphabetic
tokens but never deduplicates: its output is a permutation of the filtered
token list (so every duplicate token in the source survives, as does its
byte form), arranged in non-decreasing lexicographic order. -/
theorem C7_from_string_sorted_perm (source : List Char) :
    List.Perm (Dictionary.from_string source)
      ((splitWords (source.map Char.toLower)).filter (fun w => w.all isAsciiAlpha)) ∧
    (Dictionary.from_string source).Pairwise (fun a b => lexLe a b = true) :=
  ⟨sortBy_perm _ _, sortBy_sorted lexLe lexLe_total lexLe_trans _⟩

theorem fsub_isSome {a b : F} (ha : a.isSome) (hb : b.isSome) : (fsub a b).isSome := by
  obtain ⟨qa, rfl⟩ := Option.isSome_iff_exists.mp ha
  obtain ⟨qb, rfl⟩ := Option.isSome_iff_exists.mp hb
  rw [fsub_some]
  rfl

theorem fadd_isSome {a b : F} (ha : a.isSome) (hb : b.isSome) : (fadd a b).isSome := by
  obtain ⟨qa, rfl⟩ := Option.isSome_iff_exists.mp ha
  obtain ⟨qb, rfl⟩ := Option.isSome_iff_exists.mp hb
  rw [fadd_some]
  rfl

theorem fmul_isSome {a b : F} (ha : a.isSome) (hb : b.isSome) : (fmul a b).isSome := by
  obtain ⟨qa, rfl⟩ := Option.isSome_iff_exists.mp ha
  obtain ⟨qb, rfl⟩ := Option.isSome_iff_exists.mp hb
  rw [fmul_some]
  rfl

theorem fdiv_isSome {a : F} {q : ℚ} (ha : a.isSome) (hq : q ≠ 0) : (fdiv a (some q)).isSome := by
  obtain ⟨qa, rfl⟩ := Option.isSome_iff_exists.mp ha
  rw [fdiv_some qa q hq]
  rfl

theorem fle_total_of_isSome (a b : F) (ha : a.isSome) (hb : b.isSome) :
    fle a b = true ∨ fle b a = true := by
  obtain ⟨qa, rfl⟩ := Option.isSome_iff_exists.mp ha
  obtain ⟨qb, rfl⟩ := Option.isSome_iff_exists.mp hb
  rcases le_total qa qb with h | h
  · exact Or.inl ((fle_iff qa qb).mpr h)
  · exact Or.inr ((fle_iff qb qa).mpr h)

theorem insertLe_sorted_of_mem {α : Type} (le : α → α → Bool)
    (htrans : ∀ a b c, le a b = true → le b c = true → le a c = true) :
    ∀ (l : List α) (a : α),
    (∀ y ∈ l, le a y = true ∨ le y a = true) →
    l.Pairwise (fun x y => le x y = true) →
    (insertLe le a l).Pairwise (fun x y => le x y = true) := by
  intro l
  induction l with
  | nil =>
    intro a _ _
    simp [insertLe]
  | cons b bs ih =>
    intro a htot hl
    rcases List.pairwise_cons.mp hl with ⟨hb, hbs⟩
    by_cases h : le a b = true
    · simp only [insertLe, if_pos h]
      refine List.pairwise_cons.mpr ⟨?_, hl⟩
      intro y hy
      rcases List.mem_cons.mp hy with rfl | hy2
      · exact h
      · exact htrans a b y h (hb y hy2)
    · simp only [insertLe, if_neg h]
      refine List.pairwise_cons.mpr
        ⟨?_, ih a (fun y hy => htot y (by simp [hy])) hbs⟩
      intro y hy
      have hy3 : y ∈ a :: bs := (insertLe_perm le a bs).mem_iff.mp hy
      rcases List.mem_cons.mp hy3 with rfl | hy4
      · exact (htot b (by simp)).resolve_left h
      · exact hb y hy4

theorem sortBy_sorted_of_mem {α : Type} (le : α → α → Bool)
    (htrans : ∀ a b c, le a b = true → le b c = true → le a c = true) :
    ∀ l : List α, (∀ x ∈ l, ∀ y ∈ l, le x y = true ∨ le y x = true) →
    (sortBy le l).Pairwise (fun x y => le x y = true) := by
  intro l
  induction l with
  | nil =>
    intro _
    simp [sortBy]
  | cons x xs ih =>
    intro htot
    refine insertLe_sorted_of_mem le htrans (sortBy le xs) x ?_
      (ih (fun a ha b hb => htot a (by simp [ha]) b (by simp [hb])))
    intro y hy
    have hmem : y ∈ xs := (sortBy_perm le xs).mem_iff.mp hy
    exact htot x (by simp) y (by simp [hmem])

theorem chunksExactGo_nil_of_short (k : ℕ) :
    ∀ (fuel : ℕ) (l : List ℕ), l.length < k → chunksExactGo k fuel l = [] := by
  intro fuel l h
  cases fuel with
  | zero => rfl
  | succ f => simp [chunksExactGo, Nat.not_le.mpr h]

theorem chunksExact_single (ct : List ℕ) (p : ℕ) (hp : 1 ≤ p) (h1 : p ≤ ct.length)
    (h2 : ct.length < 2 * p) : chunksExact ct p = [ct.take p] := by
  unfold chunksExact
  obtain ⟨f, hf⟩ : ∃ f, ct.length = f + 1 := ⟨ct.length - 1, by omega⟩
  rw [hf]
  simp only [chunksExactGo]
  rw [if_pos (by omega : p ≤ ct.length),
    chunksExactGo_nil_of_short p f (ct.drop p) (by rw [List.length_drop]; omega)]

theorem chunksExact_ne_nil (ct : List ℕ) (p : ℕ) (hp : 1 ≤ p) (h1 : p ≤ ct.length) :
    chunksExact ct p ≠ [] := by
  unfold chunksExact
  obtain ⟨f, hf⟩ : ∃ f, ct.length = f + 1 := ⟨ct.length - 1, by omega⟩
  rw [hf]
  simp only [chunksExactGo]
  rw [if_pos (by omega : p ≤ ct.length)]
  simp

theorem hamming_distance_self (a : List ℕ) : hamming_distance a a = 0 := by
  induction a with
  | nil => rfl
  | cons x xs ih =>
    have hcz : count_ones8 0 = 0 := by decide
    have hx : Nat.xor x x = 0 := Nat.xor_self x
    simp [hamming_distance, hcz, hx] at ih ⊢
    omega

/-- With exactly one full chunk, the summed pairwise distance is the
distance of the chunk to itself, which is zero, and `raw(p)` is `0/1 = 0`. -/
theorem raw_single_chunk (ct : List ℕ) (p : ℕ) (hp : 1 ≤ p) (h1 : p ≤ ct.length)
    (h2 : ct.length < 2 * p) : hamming_distance_between_chunks ct p = some 0 := by
  unfold hamming_distance_between_chunks
  rw [chunksExact_single ct p hp h1 h2]
  dsimp only
  have hpd : pairsDistance [ct.take p] = 0 := by
    have h1r : List.range 1 = [0] := by decide
    have h1r' : List.range' 0 1 = [0] := by decide
    simp [pairsDistance, h1r, h1r', hamming_distance_self]
  rw [hpd]
  norm_num [fdiv, qdiv_eq]

theorem raw_isSome (ct : List ℕ) (p : ℕ) (hp : 1 ≤ p) (h1 : p ≤ ct.length) :
    (hamming_distance_between_chunks ct p).isSome := by
  unfold hamming_distance_between_chunks
  have hlen : (((chunksExact ct p).length : ℕ) : ℚ) ≠ 0 := by
    have hne : (chunksExact ct p).length ≠ 0 := by
      intro h0
      exact chunksExact_ne_nil ct p hp h1 (List.eq_nil_of_length_eq_zero h0)
    exact_mod_cast hne
  exact fdiv_isSome rfl hlen

/-- Evaluation of `guesses` on a successful fit whose detrended scores are all finite:
the ranking is the stable sort of the detrended scores. -/
theorem guesses_eq_of_all (ct : List ℕ) (M B : F)
    (hfit : guessesFit ct = some (M, B))
    (hall : (detrended ct M B).all (fun p => p.2.isSome) = true) :
    guesses ct = some (sortBy (fun x y => fle x.2 y.2) (detrended ct M B)) := by
  rw [guesses, hfit, Option.some_bind]
  dsimp only
  rw [if_pos hall]

set_option maxRecDepth 1000000 in
/-- Once every candidate keysize admits at least one chunk (ciphertext of
length 69 or more), the whole estimator runs without panicking. -/
theorem guesses_isSome_of_long (ct : List ℕ) (hlen : 69 ≤ ct.length) :
    (guesses ct).isSome := by
  have hraw : ∀ x ∈ rawScores ct, (x.2 : F).isSome := by
    intro x hx
    rcases List.mem_map.mp hx with ⟨k, hk, rfl⟩
    have hkb := List.mem_range'_1.mp hk
    exact raw_isSome ct k (by omega) (by omega)
  have hxs : ((rawScores ct).map (fun p => ((some ((p.1 : ℚ)) : F), p.2))).map
      (fun p => p.1) = (List.range' 3 67).map (fun (k : ℕ) => (some ((k : ℚ)) : F)) := by
    rw [rawScores, List.map_map, List.map_map]
    apply List.map_congr_left
    intro k _
    rfl
  have hxmean : fdiv (fsum (((rawScores ct).map
        (fun p => ((some ((p.1 : ℚ)) : F), p.2))).map (fun p => p.1))) (some 67)
      = some 36 := by
    rw [hxs]
    decide
  have hymean : (fdiv (fsum (((rawScores ct).map
        (fun p => ((some ((p.1 : ℚ)) : F), p.2))).map (fun p => p.2))) (some 67)).isSome := by
    refine fdiv_isSome (fsum_isSome _ ?_) (by norm_num)
    intro x hx
    rcases List.mem_map.mp hx with ⟨p, hp, rfl⟩
    rcases List.mem_map.mp hp with ⟨p2, hp2, rfl⟩
    exact hraw p2 hp2
  have hdenlist : ((rawScores ct).map (fun p => ((some ((p.1 : ℚ)) : F), p.2))).map
      (fun p => fmul (fsub p.1 (some 36)) (fsub p.1 (some 36)))
      = (List.range' 3 67).map
        (fun (k : ℕ) => fmul (fsub (some ((k : ℚ))) (some 36))
          (fsub (some ((k : ℚ))) (some 36))) := by
    rw [rawScores, List.map_map, List.map_map]
    apply List.map_congr_left
    intro k _
    rfl
  have hden : fsum ((List.range' 3 67).map
      (fun (k : ℕ) => fmul (fsub (some ((k : ℚ))) (some 36))
        (fsub (some ((k : ℚ))) (some 36))))
      = some 25058 := by decide
  have hnum : (fsum (((rawScores ct).map (fun p => ((some ((p.1 : ℚ)) : F), p.2))).map
      (fun p => fmul (fsub p.1 (some 36)) (fsub p.2 (fdiv (fsum (((rawScores ct).map
        (fun p => ((some ((p.1 : ℚ)) : F), p.2))).map (fun p => p.2))) (some 67)))))).isSome := by
    refine fsum_isSome _ ?_
    intro x hx
    rcases List.mem_map.mp hx with ⟨p, hp, rfl⟩
    rcases List.mem_map.mp hp with ⟨p2, hp2, rfl⟩
    exact fmul_isSome (fsub_isSome rfl rfl) (fsub_isSome (hraw p2 hp2) hymean)
  have hfit : ∃ M B, guessesFit ct = some (M, B) ∧ M.isSome ∧ B.isSome := by
    unfold guessesFit lin_reg
    dsimp only
    rw [hxmean, hdenlist, hden, if_neg (by decide : ¬ ((some (25058 : ℚ) : F) = some 0))]
    refine ⟨_, _, rfl, ?_, ?_⟩
    · exact fdiv_isSome hnum (by norm_num)
    · exact fsub_isSome hymean (fmul_isSome (fdiv_isSome hnum (by norm_num)) rfl)
  obtain ⟨M, B, hfit2, hM, hB⟩ := hfit
  have hall : (detrended ct M B).all (fun p => p.2.isSome) = true := by
    refine List.all_eq_true.mpr ?_
    intro p hp
    rcases List.mem_map.mp hp with ⟨p2, hp2, rfl⟩
    rcases List.mem_map.mp hp2 with ⟨k, hk, rfl⟩
    have hkb := List.mem_range'_1.mp hk
    have hk0 : ((k : ℕ) : ℚ) ≠ 0 := by
      have hkpos : (0 : ℕ) < k := by omega
      exact_mod_cast hkpos.ne'
    exact fdiv_isSome
      (fadd_isSome (fsub_isSome (hraw _ hp2) hB) (fmul_isSome hM rfl)) hk0
  rw [guesses_eq_of_all ct M B hfit2 hall]
  rfl

set_option maxRecDepth 1000000 in
/-- C3 counterexample: on a 69-symbol all-zero ciphertext, `guesses` returns
exactly the 67 periods 3 through 69 — the search range is `[3, 70)`, not the
claimed `[3, 120)`; in particular no period 119 (or any period at or above
70) is ever evaluated or returned. -/
theorem C3_counterexample :
    guesses (List.replicate 69 0) =
      some ((List.range' 3 67).map (fun k => ((k : ℕ), (some 0 : F)))) ∧
    (∀ x ∈ (List.range' 3 67).map (fun k => ((k : ℕ), (some 0 : F))), x.1 < 70) ∧
    ¬ (∃ s : F, ((119 : ℕ), s) ∈ (List.range' 3 67).map (fun k => ((k : ℕ), (some 0 : F)))) := by
  refine ⟨by decide, by decide, ?_⟩
  rintro ⟨s, hs⟩
  rcases List.mem_map.mp hs with ⟨k, hk, hke⟩
  have := List.mem_range'_1.mp hk
  have : k = 119 := (Prod.mk.injEq _ _ _ _).mp hke |>.1
  omega

/-- C3 amended: `guesses` evaluates every candidate period in `[3, 70)` (not
`[3, 120)`); whenever it returns a ranking, that ranking is a permutation of
the 67 detrended scores produced by the regression fit, sorted ascending by
score, and every returned period lies in `[3, 70)`. -/
theorem C3_guesses_amended (ct : List ℕ) (l : List (ℕ × F))
    (h : guesses ct = some l) :
    (∃ M B, guessesFit ct = some (M, B) ∧ List.Perm l (detrended ct M B)) ∧
    l.Pairwise (fun x y => fle x.2 y.2 = true) ∧
    (∀ x ∈ l, 3 ≤ x.1 ∧ x.1 < 70) := by
  rw [guesses] at h
  rcases hfit : guessesFit ct with _ | ⟨M, B⟩
  · rw [hfit, Option.none_bind] at h
    cases h
  · rw [hfit, Option.some_bind] at h
    dsimp only at h
    by_cases hall : (detrended ct M B).all (fun p => p.2.isSome)
    · rw [if_pos hall] at h
      rw [Option.some_inj] at h
      have hsome : ∀ x ∈ detrended ct M B, (x.2 : F).isSome := by
        intro x hx
        exact List.all_eq_true.mp hall x hx
      refine ⟨⟨M, B, rfl, ?_⟩, ?_, ?_⟩
      · rw [← h]
        exact sortBy_perm _ _
      · rw [← h]
        refine sortBy_sorted_of_mem (fun x y => fle x.2 y.2)
          (fun a b c => fle_trans_f) (detrended ct M B) ?_
        intro x hx y hy
        exact fle_total_of_isSome _ _ (hsome x hx) (hsome y hy)
      · intro x hx
        have hx2 : x ∈ detrended ct M B := by
          rw [← h] at hx
          exact (sortBy_perm _ _).mem_iff.mp hx
        rcases List.mem_map.mp hx2 with ⟨p, hp, rfl⟩
        rcases List.mem_map.mp hp with ⟨k, hk, rfl⟩
        have := List.mem_range'_1.mp hk
        constructor <;> simp <;> omega
    · rw [if_neg hall] at h
      cases h

set_option maxRecDepth 1000000 in
/-- C3 witness: the amended statement instantiated on the concrete 69-symbol
all-zero ciphertext and its concrete ranking. -/
theorem C3_witness :
    (∃ M B, guessesFit (List.replicate 69 0) = some (M, B) ∧
      List.Perm ((List.range' 3 67).map (fun k => ((k : ℕ), (some 0 : F))))
        (detrended (List.replicate 69 0) M B)) ∧
    ((List.range' 3 67).map (fun k => ((k : ℕ), (some 0 : F)))).Pairwise
      (fun x y => fle x.2 y.2 = true) ∧
    (∀ x ∈ (List.range' 3 67).map (fun k => ((k : ℕ), (some 0 : F))),
      3 ≤ x.1 ∧ x.1 < 70) :=
  C3_guesses_amended (List.replicate 69 0) _ (by decide)

set_option maxRecDepth 1000000 in
/-- C4 counterexample: the 5-symbol ciphertext `aaaaa` is shorter than twice
the candidate period for every candidate, yet `guesses` does not return a
ranking: for periods above 5 no chunk fits, `raw` is `0.0/0.0 = NaN`, and the
final `sort_by(partial_cmp(..).unwrap())` panics (modelled as `none`). -/
theorem C4_counterexample : guesses [0, 0, 0, 0, 0] = none := by decide

/-- C4 amended: when at least one chunk fits (period at most the length,
length below twice the period) the raw score for that period is 0, exactly as
claimed; but the estimator only returns a ranking without panicking when
every candidate period fits at least one chunk, i.e. the ciphertext has
length at least 69 — for shorter ciphertexts some raw score is NaN (zero
chunks, `0.0/0.0`) and the final sort panics. -/
theorem C4_raw_zero_or_panic :
    (∀ (ct : List ℕ) (p : ℕ), 1 ≤ p → p ≤ ct.length → ct.length < 2 * p →
      hamming_distance_between_chunks ct p = some 0) ∧
    (∀ ct : List ℕ, 69 ≤ ct.length → (guesses ct).isSome) :=
  ⟨fun ct p hp h1 h2 => raw_single_chunk ct p hp h1 h2, guesses_isSome_of_long⟩

/-- C4 witness: the zero raw score at the 5-symbol ciphertext with period 3,
and a returned ranking at the 69-symbol ciphertext. -/
theorem C4_witness :
    hamming_distance_between_chunks [0, 0, 0, 0, 0] 3 = some 0 ∧
    (guesses (List.replicate 69 0)).isSome :=
  ⟨C4_raw_zero_or_panic.1 [0, 0, 0, 0, 0] 3 (by norm_num) (by norm_num) (by norm_num),
    C4_raw_zero_or_panic.2 (List.replicate 69 0) (by simp)⟩

-- sanity checks against the `cargo test` cases of src/dict.rs
example : levenshtein [0, 2, 1] [0, 1, 2] = 2 := by decide
example : levenshtein [3, 4] [3, 4, 5] = 1 := by decide
example : levenshtein [6, 7, 8] [6, 7, 8] = 0 := by decide
example : levenshtein [] [6, 7, 8] = 3 := by decide
example : levenshtein [26, 9, 10, 11, 26] [9, 10, 11] = 2 := by decide
example : levenshtein [0, 1, 2, 26, 3, 4, 5] [0, 1, 2] = 4 := by decide
example : best_levenshtein [[0, 1, 2], [3, 4, 5]] [0, 2, 1] = some ([0, 1, 2], 2) := by decide

theorem foldl_max_mem {α : Type} (f : α → ℕ) (x : α) (xs : List α) :
    xs.foldl (fun best y => if f best ≤ f y then y else best) x ∈ x :: xs := by
  induction xs generalizing x with
  | nil => exact List.mem_singleton.mpr rfl
  | cons y ys ih =>
    simp only [List.foldl]
    by_cases hxy : f x ≤ f y
    · rw [if_pos hxy]
      rcases List.mem_cons.mp (ih y) with h1 | h1
      · rw [h1]
        exact List.mem_cons_of_mem _ (List.mem_cons_self _ _)
      · exact List.mem_cons_of_mem _ (List.mem_cons_of_mem _ h1)
    · rw [if_neg hxy]
      rcases List.mem_cons.mp (ih x) with h1 | h1
      · rw [h1]
        exact List.mem_cons_self _ _
      · exact List.mem_cons_of_mem _ (List.mem_cons_of_mem _ h1)

theorem foldl_max_ge {α : Type} (f : α → ℕ) (x : α) (xs : List α) :
    ∀ z ∈ x :: xs, f z ≤ f (xs.foldl (fun best y => if f best ≤ f y then y else best) x) := by
  induction xs generalizing x with
  | nil =>
    intro z hz
    exact le_of_eq (congrArg f (List.mem_singleton.mp hz))
  | cons y ys ih =>
    intro z hz
    simp only [List.foldl]
    have hb : f x ≤ f (if f x ≤ f y then y else x) ∧
        f y ≤ f (if f x ≤ f y then y else x) := by
      by_cases hxy : f x ≤ f y
      · rw [if_pos hxy]; exact ⟨hxy, le_refl _⟩
      · rw [if_neg hxy]; exact ⟨le_refl _, le_of_not_le hxy⟩
    have hfold := ih (if f x ≤ f y then y else x) _ (List.mem_cons_self _ _)
    rcases List.mem_cons.mp hz with rfl | hz1
    · exact le_trans hb.1 hfold
    · rcases List.mem_cons.mp hz1 with rfl | hz2
      · exact le_trans hb.2 hfold
      · exact ih _ _ (List.mem_cons_of_mem _ hz2)

/-- The function `chooseWord` on a non-empty candidate list returns a member of the list
whose score is maximal. -/
theorem chooseWord_spec (l : List (List ℕ × ℕ × ℕ)) (hne : l ≠ []) :
    ∃ w, chooseWord l = some w ∧ w ∈ l ∧
      ∀ x ∈ l, wscore x.2.2 x.2.1 ≤ wscore w.2.2 w.2.1 := by
  match l, hne with
  | x :: xs, _ =>
    refine ⟨_, rfl, ?_, ?_⟩
    · exact foldl_max_mem (fun c => wscore c.2.2 c.2.1) x xs
    · exact foldl_max_ge (fun c => wscore c.2.2 c.2.1) x xs

/-- C6: corrected form.  In every `spellcheck` loop iteration the candidate
chosen is a member of the candidate list maximizing the source's score
`(bytes_used as f32 / edit_distance as f32 * 1000.0) as usize` (no `ε`), and
the iteration emits that candidate's word and advances by its
`bytes_used`. -/
theorem C6_spellcheck_amended (dict : List (List ℕ)) (longest fuel : ℕ) (ns : List ℕ)
    (hlen : 1 < ns.length) (hne : nextWords dict longest ns ≠ []) :
    ∃ w, chooseWord (nextWords dict longest ns) = some w ∧
      w ∈ nextWords dict longest ns ∧
      (∀ x ∈ nextWords dict longest ns, wscore x.2.2 x.2.1 ≤ wscore w.2.2 w.2.1) ∧
      spellcheckGo dict longest (fuel + 1) ns =
        (spellcheckGo dict longest fuel (ns.drop w.2.2)).map
          (fun rest => w.1 ++ rest) := by
  obtain ⟨w, hw, hmem, hmax⟩ := chooseWord_spec _ hne
  refine ⟨w, hw, hmem, hmax, ?_⟩
  simp only [spellcheckGo]
  rw [if_pos hlen, hw]

/-- C6 witness at a concrete dictionary and slice. -/
theorem C6_witness :
    ∃ w, chooseWord (nextWords [[0, 26]] 3 [0, 0]) = some w ∧
      w ∈ nextWords [[0, 26]] 3 [0, 0] ∧
      (∀ x ∈ nextWords [[0, 26]] 3 [0, 0], wscore x.2.2 x.2.1 ≤ wscore w.2.2 w.2.1) ∧
      spellcheckGo [[0, 26]] 3 1 [0, 0] =
        (spellcheckGo [[0, 26]] 3 0 ([0, 0].drop w.2.2)).map
          (fun rest => w.1 ++ rest) :=
  C6_spellcheck_amended [[0, 26]] 3 0 [0, 0] (by decide) (by decide)

/-- C6 counterexample: the source scores the candidate with probe length 1
and edit distance 1 as exactly 1000, while the spec's formula
`ℓ / (d + ε) · K` yields strictly less than 1000 there for every admissible
`ε > 0`; so no positive `ε` reproduces the code's scoring.  Exact matches
are scored `usize::MAX` by the saturating float-to-int cast. -/
theorem C6_counterexample :
    wscore 1 1 = 1000 ∧ wscore 1 0 = 2 ^ 64 - 1 ∧
      ∀ ε : ℚ, ε ≤ 0 ∨ (1 : ℚ) / (1 + ε) * 1000 < (wscore 1 1 : ℚ) := by
  refine ⟨by decide, by decide, fun ε => ?_⟩
  rcases le_or_lt ε 0 with h | h
  · exact Or.inl h
  · refine Or.inr ?_
    have hw : ((wscore 1 1 : ℕ) : ℚ) = 1000 := by norm_num [wscore, USIZE_MAX]
    rw [hw]
    have h1 : (1 : ℚ) < 1 + ε := by linarith
    have h2 : (1 : ℚ) / (1 + ε) < 1 := by
      rw [div_lt_one (by linarith)]
      exact h1
    nlinarith

end Cipher
